import Mathlib

/-!
Verification of the generic singly-linked list implementation in `src/list.h`
(instantiated in `src/main.c` with `MAKE_LIST_OF(int)`).

Two embeddings are developed:

1. A functional embedding where a `LinkedList_<T>` is represented by the Lean
   `List` of the values stored along its node chain, and each C function is
   translated to a Lean function on that representation.  Allocation success
   of `malloc` is made explicit as a `Bool` oracle argument.

2. A pointer-machine embedding (`PtrList`) where the heap of nodes is explicit
   (a store mapping addresses to optional nodes plus an allocation bound) and
   the C loops are translated with an explicit fuel argument.  This model is
   used to state and prove the structural invariants (acyclicity, no sharing,
   reachable-node count).

C enum values from `list.h`:
  `GOT_OK = 0`, `GOT_OUT_OF_BOUNDS = 1`, `GOT_EMPTY_LIST = 2`.
-/

namespace DSA

/-- Status `GOT_OK`, member of the unnamed status enum in `list.h`. -/
def GOT_OK : Nat := 0

/-- Status `GOT_OUT_OF_BOUNDS`, member of the unnamed status enum in `list.h`. -/
def GOT_OUT_OF_BOUNDS : Nat := 1

/-- Status `GOT_EMPTY_LIST`, member of the unnamed status enum in `list.h`. -/
def GOT_EMPTY_LIST : Nat := 2

/-! ## Functional embedding

A list value is the sequence of element values along the chain from `head`;
`[]` is the list whose `head` is `NULL`. -/

/-- Translation of `_MAKE_FUNCTION_NEW_LIST`: `LinkedList_T_make` returns a fresh list with
`head = NULL`.  (The `malloc`-failure branch returns `NULL` to the caller and
creates no list; the embedding models the successfully created list.) -/
def LinkedList_make (α : Type) : List α := []

/-- Translation of `_MAKE_FUNCTION_NEW_NODE`: `LinkedList_T_new` allocates a node holding
`value` with `next = NULL`, or returns `NULL` when `malloc` fails.  The
`allocOk` oracle tells whether `malloc` succeeds. -/
def LinkedList_new (allocOk : Bool) (value : α) : Option α :=
  if allocOk then some value else none

/-- Translation of `_MAKE_FUNCTION_APPEND_LIST`: `LinkedList_T_append(value, list)`.
If `head == NULL` the result of `LinkedList_T_new` is assigned to `head`;
otherwise the loop walks `current` to the tail node (the one with
`next == NULL`) and assigns the result of `LinkedList_T_new` to
`current->next`.  Assigning the `NULL` returned by a failed allocation leaves
the chain structurally unchanged.  The recursion below mirrors the traversal:
the head element is kept and the assignment happens at the tail. -/
def LinkedList_append (allocOk : Bool) (value : α) : List α → List α
  | [] =>
    match LinkedList_new allocOk value with
    | none => []
    | some v => [v]
  | x :: xs => x :: LinkedList_append allocOk value xs

/-- The C call `LinkedList_T_append(value, list)` as seen by the caller:
its return type is `void`, so the returned value is `()` paired with the
mutated list.  No status of any kind is returned. -/
def LinkedList_append_call (allocOk : Bool) (value : α) (l : List α) :
    Unit × List α :=
  ((), LinkedList_append allocOk value l)

/-- Translation of `_MAKE_FUNCTION_LEN`: `LinkedList_T_len` counts the nodes reachable from
`head` by following `next` until `NULL`. -/
def LinkedList_len : List α → Nat
  | [] => 0
  | _ :: xs => LinkedList_len xs + 1

/-- The `while (i < index) { current = current->next; ++i; }` walk inside
`LinkedList_T_get`: advance `current` by `index` steps. -/
def LinkedList_advance : Nat → List α → List α
  | 0, l => l
  | _ + 1, [] => []
  | n + 1, _ :: xs => LinkedList_advance n xs

/-- Translation of `_MAKE_FUNCTION_GET`: `int LinkedList_T_get(size_t index, list, T *result)`.
Checks `len == 0` first (returns `GOT_EMPTY_LIST`), then `len <= index`
(returns `GOT_OUT_OF_BOUNDS`), else walks `index` steps and writes
`current->value` through `result`.  The embedding threads the prior contents
of `*result` and returns the status paired with the final contents of
`*result`; on the two error paths the function returns before the write, so
the prior contents are returned unchanged. -/
def LinkedList_get (index : Nat) (l : List α) (result : α) : Nat × α :=
  let len := LinkedList_len l
  if len = 0 then (GOT_EMPTY_LIST, result)
  else if len ≤ index then (GOT_OUT_OF_BOUNDS, result)
  else
    match LinkedList_advance index l with
    | [] => (GOT_OK, result)
    | v :: _ => (GOT_OK, v)

/-- Translation of `_MAKE_FUNCTION_DELETE_VALUE`: `int LinkedList_T_delete(T value, list)`.
The scan keeps `previous` one node behind `current` (they alias at the first
iteration).  On the first `current->value == value`:
`previous->next = current->next` (a write to the matched node itself when the
match is at the head), `head = current->next` when `current == head`, the node
is freed, and `0` is returned.  If the scan falls off the end, `1` is
returned.  Structurally: a head match drops the head; a non-head match keeps
the current head and deletes inside the tail, which is what the recursive
cons-reconstruction below performs. -/
def LinkedList_delete [DecidableEq α] (value : α) : List α → Nat × List α
  | [] => (1, [])
  | x :: xs =>
    if x = value then (0, xs)
    else
      let r := LinkedList_delete value xs
      (r.1, x :: r.2)

/-- Appending the values `vs` in order, oldest first, each with a successful
allocation. -/
def LinkedList_appendAll (vs : List α) (l : List α) : List α :=
  vs.foldl (fun acc v => LinkedList_append true v acc) l

/-! ## Pointer-machine embedding

The heap of `LinkedList_T_Node` cells is explicit: addresses are natural
numbers, a store maps each address to the node stored there (or `none` for
unallocated / freed cells), and `bound` is the allocator frontier — `malloc`
hands out the fresh address `bound`.  The C `while` loops become fuel-indexed
recursions; under the structural invariant a fuel of `bound + 1` always
suffices, since an acyclic chain of allocated nodes has at most `bound`
cells. -/

/-- One `LinkedList_T_Node`: a stored value and the `next` pointer
(`none` = `NULL`). -/
structure PNode (α : Type) where
  value : α
  next : Option Nat

/-- The node heap: what each address currently holds. -/
def Store (α : Type) : Type := Nat → Option (PNode α)

/-- Writing one heap cell. -/
def setStore (s : Store α) (a : Nat) (n : Option (PNode α)) : Store α :=
  fun b => if b = a then n else s b

/-- A `LinkedList_T` together with its node heap: `head` is the pointer
stored in the list struct, `store`/`bound` the allocator state. -/
structure PtrList (α : Type) where
  store : Store α
  bound : Nat
  head : Option Nat

/-- Heap version of `LinkedList_T_make()` (successful allocation): a fresh list with
`head = NULL` over an empty heap. -/
def LinkedList_makeP (α : Type) : PtrList α :=
  { store := fun _ => none, bound := 0, head := none }

/-- Heap version of `_MAKE_FUNCTION_NEW_NODE`: on success returns the fresh
address (the old `bound`) with the node written there, on `malloc` failure
returns `NULL` and an untouched heap. -/
def LinkedList_newP (allocOk : Bool) (v : α) (s : Store α) (bound : Nat) :
    Option Nat × Store α × Nat :=
  match allocOk with
  | true => (some bound, setStore s bound (some ⟨v, none⟩), bound + 1)
  | false => (none, s, bound)

/-- The `while (current->next != NULL) current = current->next;` walk of
`_MAKE_FUNCTION_APPEND_LIST`, with fuel.  Returns the address of the tail
node (the reachable node whose `next` is `NULL`). -/
def findTail (s : Store α) : Nat → Nat → Option Nat
  | 0, _ => none
  | fuel + 1, a =>
    match s a with
    | none => none
    | some n =>
      match n.next with
      | none => some a
      | some b => findTail s fuel b

/-- Heap version of `_MAKE_FUNCTION_APPEND_LIST`: if `head == NULL`, the result
of `LinkedList_T_new` is assigned to `head`; otherwise the tail is found and
the result of `LinkedList_T_new` is assigned to its `next`.  The two `none`
fallbacks for the tail walk cannot occur on a well-formed list. -/
def LinkedList_appendP (allocOk : Bool) (v : α) (st : PtrList α) : PtrList α :=
  match st.head with
  | none =>
    let r := LinkedList_newP allocOk v st.store st.bound
    { store := r.2.1, bound := r.2.2, head := r.1 }
  | some h =>
    match findTail st.store (st.bound + 1) h with
    | none => st
    | some t =>
      match st.store t with
      | none => st
      | some tn =>
        let r := LinkedList_newP allocOk v st.store st.bound
        { store := setStore r.2.1 t (some ⟨tn.value, r.1⟩), bound := r.2.2,
          head := st.head }

/-- The scan loop of `_MAKE_FUNCTION_DELETE_VALUE`, with fuel.  `curr` and
`prev` are the `current` and `previous` pointers (they alias on entry).  On
a match: `previous->next = current->next`, `head = current->next` when
`current == list->head`, `free(current)`, return `0`; falling off the end
returns `1`.  The `prev = NULL` and dangling-pointer fallbacks cannot occur
when the loop is entered as the C code enters it on a well-formed list. -/
def deleteLoop [DecidableEq α] (v : α) :
    Nat → PtrList α → Option Nat → Option Nat → Nat × PtrList α
  | 0, st, _, _ => (1, st)
  | fuel + 1, st, curr, prev =>
    match curr with
    | none => (1, st)
    | some c =>
      match st.store c with
      | none => (1, st)
      | some cn =>
        if cn.value = v then
          let s1 : Store α :=
            match prev with
            | none => st.store
            | some p =>
              match st.store p with
              | none => st.store
              | some pn => setStore st.store p (some ⟨pn.value, cn.next⟩)
          let newHead : Option Nat :=
            if st.head = some c then cn.next else st.head
          (0, { store := setStore s1 c none, bound := st.bound,
                head := newHead })
        else
          deleteLoop v fuel st cn.next (some c)

/-- Heap version of `_MAKE_FUNCTION_DELETE_VALUE`: the scan starts with
`current = previous = list->head`. -/
def LinkedList_deleteP [DecidableEq α] (v : α) (st : PtrList α) :
    Nat × PtrList α :=
  deleteLoop v (st.bound + 1) st st.head st.head

/-- The counting loop of `_MAKE_FUNCTION_LEN`, with fuel. -/
def lenLoop (s : Store α) : Nat → Option Nat → Nat
  | 0, _ => 0
  | _ + 1, none => 0
  | fuel + 1, some a =>
    match s a with
    | none => 0
    | some n => lenLoop s fuel n.next + 1

/-- Heap version of `_MAKE_FUNCTION_LEN`. -/
def LinkedList_lenP (st : PtrList α) : Nat :=
  lenLoop st.store (st.bound + 1) st.head

/-- Predicate `ChainSeg s p l q`: starting from pointer `p`, following `next` visits
exactly the addresses `l` in order and ends with the pointer `q`.  One
constructor step consumes the allocated node at the current address, so a
finite derivation exists only along live, terminating chains. -/
inductive ChainSeg (s : Store α) : Option Nat → List Nat → Option Nat → Prop
  | nil (p : Option Nat) : ChainSeg s p [] p
  | cons {p : Nat} {n : PNode α} {l : List Nat} {q : Option Nat} :
      s p = some n → ChainSeg s n.next l q → ChainSeg s (some p) (p :: l) q

/-- Structural invariant of a `PtrList`: every address at or beyond the
allocator frontier is unallocated, and the node chain from `head` reaches
`NULL` after visiting a finite list of addresses. -/
def WF (st : PtrList α) : Prop :=
  (∀ a, st.bound ≤ a → st.store a = none) ∧
  ∃ addrs, ChainSeg st.store st.head addrs none

/-! ### Basic lemmas about the functional embedding -/

theorem append_true (value : α) (l : List α) :
    LinkedList_append true value l = l ++ [value] := by
  induction l with
  | nil => rfl
  | cons x xs ih => simp [LinkedList_append, ih]

theorem append_false (value : α) (l : List α) :
    LinkedList_append false value l = l := by
  induction l with
  | nil => rfl
  | cons x xs ih => simp [LinkedList_append, ih]

theorem appendAll_nil_eq (vs : List α) : LinkedList_appendAll vs [] = vs := by
  suffices h : ∀ l : List α, LinkedList_appendAll vs l = l ++ vs by
    simpa using h []
  induction vs with
  | nil => intro l; simp [LinkedList_appendAll]
  | cons v vs ih =>
    intro l
    simp only [LinkedList_appendAll, List.foldl_cons] at *
    rw [append_true, ih]
    simp

theorem len_eq_length (l : List α) : LinkedList_len l = l.length := by
  induction l with
  | nil => rfl
  | cons x xs ih => simp [LinkedList_len, ih]

theorem advance_eq_drop (n : Nat) (l : List α) :
    LinkedList_advance n l = l.drop n := by
  induction n generalizing l with
  | zero => simp [LinkedList_advance]
  | succ n ih =>
    cases l with
    | nil => simp [LinkedList_advance]
    | cons x xs => simp [LinkedList_advance, ih]

theorem get_ok (l : List α) (i : Nat) (r : α) (h : i < l.length) :
    LinkedList_get i l r = (GOT_OK, l.get ⟨i, h⟩) := by
  have hlen : LinkedList_len l = l.length := len_eq_length l
  have hne : ¬ LinkedList_len l = 0 := by omega
  have hle : ¬ LinkedList_len l ≤ i := by omega
  simp only [LinkedList_get, hne, hle, if_false, advance_eq_drop]
  have hdrop : l.drop i = l.get ⟨i, h⟩ :: l.drop (i + 1) := by
    rw [List.drop_eq_getElem_cons h]
    simp
  rw [hdrop]

theorem delete_not_mem [DecidableEq α] (value : α) (l : List α)
    (h : value ∉ l) : LinkedList_delete value l = (1, l) := by
  induction l with
  | nil => rfl
  | cons x xs ih =>
    simp only [List.mem_cons, not_or] at h
    have hx : ¬ x = value := fun hc => h.1 hc.symm
    simp [LinkedList_delete, hx, ih h.2]

theorem delete_first [DecidableEq α] (l1 l2 : List α) (value : α)
    (h : value ∉ l1) :
    LinkedList_delete value (l1 ++ value :: l2) = (0, l1 ++ l2) := by
  induction l1 with
  | nil => simp [LinkedList_delete]
  | cons x xs ih =>
    simp only [List.mem_cons, not_or] at h
    have hx : ¬ x = value := fun hc => h.1 hc.symm
    simp [LinkedList_delete, hx, ih h.2]

theorem get_empty (i : Nat) (r : α) :
    LinkedList_get i ([] : List α) r = (GOT_EMPTY_LIST, r) := rfl

theorem get_oob (l : List α) (i : Nat) (r : α) (hl : l ≠ [])
    (hi : LinkedList_len l ≤ i) :
    LinkedList_get i l r = (GOT_OUT_OF_BOUNDS, r) := by
  have h0 : ¬ LinkedList_len l = 0 := by
    rw [len_eq_length]
    exact fun hc => hl (List.length_eq_zero.mp hc)
  simp [LinkedList_get, h0, hi]

/-! ## Claim theorems on the functional embedding -/

/-- C1: `LinkedList_T_delete` relinks correctly around the first matching
node.  In general, when the match sits after a prefix `l1` of non-matching
values, the predecessor's `next` is redirected to the removed node's `next`,
yielding `l1 ++ l2`; this covers the head case `l1 = []`, where `head` is
updated instead (including `[v]` becoming empty).  Concretely, deleting `b`
from `[a, b, c]` (with `a ≠ b`, so the match is the second node) yields
`[a, c]` with length 2, and `get(1)` then returns `c`. -/
theorem C1_delete_relinks (v a b c r : Int) (l1 l2 : List Int)
    (hv : v ∉ l1) (hab : b ≠ a) :
    LinkedList_delete v (l1 ++ v :: l2) = (0, l1 ++ l2) ∧
    (LinkedList_delete b [a, b, c] = (0, [a, c]) ∧
      LinkedList_len [a, c] = 2 ∧
      LinkedList_get 1 [a, c] r = (GOT_OK, c)) ∧
    LinkedList_delete v [v] = (0, []) := by
  refine ⟨delete_first l1 l2 v hv, ⟨?_, rfl, rfl⟩, ?_⟩
  · have h2 := delete_first [a] [c] b (by simpa using hab)
    simpa using h2
  · simp [LinkedList_delete]

theorem C1_delete_relinks_witness :
    LinkedList_delete (2 : Int) ([1] ++ 2 :: [3]) = (0, [1] ++ [3]) ∧
    (LinkedList_delete (2 : Int) [1, 2, 3] = (0, [1, 3]) ∧
      LinkedList_len [(1 : Int), 3] = 2 ∧
      LinkedList_get 1 [(1 : Int), 3] 0 = (GOT_OK, 3)) ∧
    LinkedList_delete (2 : Int) [2] = (0, []) :=
  C1_delete_relinks 2 1 2 3 0 [1] [3] (by decide) (by decide)

/-- C2: after appending `v0..vn-1` in order to a freshly made list, `get(i)`
returns `GOT_OK` and value `vi` for every `i < n`. -/
theorem C2_order_preservation (vs : List Int) (i : Nat) (r : Int)
    (h : i < vs.length) :
    LinkedList_get i (LinkedList_appendAll vs (LinkedList_make Int)) r
      = (GOT_OK, vs.get ⟨i, h⟩) := by
  rw [LinkedList_make, appendAll_nil_eq]
  exact get_ok vs i r h

theorem C2_order_preservation_witness :
    LinkedList_get 1 (LinkedList_appendAll [5, 6, 7] (LinkedList_make Int)) 0
      = (GOT_OK, 6) :=
  C2_order_preservation [5, 6, 7] 1 0 (by decide)

/-- C3: `LinkedList_T_get` checks emptiness before bounds: on a freshly made
(never-appended) list it returns `GOT_EMPTY_LIST` for every index, including
0; on a non-empty list with `len <= index` it returns `GOT_OUT_OF_BOUNDS`;
after appending exactly the non-empty sequence `vs` (`k = vs.length`
appends), `get(k)` returns `GOT_OUT_OF_BOUNDS` and `get(k-1)` returns
`GOT_OK`. -/
theorem C3_get_error_precedence (l vs : List Int) (i : Nat) (r : Int)
    (hvs : vs ≠ []) :
    LinkedList_get i (LinkedList_make Int) r = (GOT_EMPTY_LIST, r) ∧
    (l ≠ [] → LinkedList_len l ≤ i →
      LinkedList_get i l r = (GOT_OUT_OF_BOUNDS, r)) ∧
    (LinkedList_get vs.length
        (LinkedList_appendAll vs (LinkedList_make Int)) r).1
      = GOT_OUT_OF_BOUNDS ∧
    (LinkedList_get (vs.length - 1)
        (LinkedList_appendAll vs (LinkedList_make Int)) r).1 = GOT_OK := by
  refine ⟨get_empty i r, fun hl hi => get_oob l i r hl hi, ?_, ?_⟩
  · rw [LinkedList_make, appendAll_nil_eq,
      get_oob vs vs.length r hvs (by rw [len_eq_length])]
  · have hpos : 0 < vs.length := List.length_pos.mpr hvs
    have hlt : vs.length - 1 < vs.length := by omega
    rw [LinkedList_make, appendAll_nil_eq, get_ok vs (vs.length - 1) r hlt]

theorem C3_get_error_precedence_witness :
    LinkedList_get 0 (LinkedList_make Int) 9 = (GOT_EMPTY_LIST, 9) ∧
    ([(4 : Int)] ≠ [] → LinkedList_len [(4 : Int)] ≤ 1 →
      LinkedList_get 1 [(4 : Int)] 9 = (GOT_OUT_OF_BOUNDS, 9)) ∧
    (LinkedList_get 2 (LinkedList_appendAll [5, 6] (LinkedList_make Int)) 9).1
      = GOT_OUT_OF_BOUNDS ∧
    (LinkedList_get 1 (LinkedList_appendAll [5, 6] (LinkedList_make Int)) 9).1
      = GOT_OK :=
  C3_get_error_precedence [4] [5, 6] 1 9 (by decide)

/-- C4: after appending N values to a freshly made list, `LinkedList_T_len`
returns exactly N; on a freshly made list it returns 0. -/
theorem C4_len_counts_appends (vs : List Int) :
    LinkedList_len (LinkedList_appendAll vs (LinkedList_make Int)) = vs.length ∧
    LinkedList_len (LinkedList_make Int) = 0 := by
  refine ⟨?_, rfl⟩
  rw [LinkedList_make, appendAll_nil_eq, len_eq_length]

/-- C5: `LinkedList_T_delete` removes exactly the first (leftmost) matching
node: with `v` absent from the prefix `l1`, deleting `v` from
`l1 ++ v :: l2` leaves `l1 ++ l2`, keeping every later occurrence of `v`
inside `l2`; in particular appending `[a, b, a]` and deleting `a` removes
only the first occurrence, leaving `[b, a]`. -/
theorem C5_delete_first_occurrence (v a b : Int) (l1 l2 : List Int)
    (hv : v ∉ l1) :
    LinkedList_delete v (l1 ++ v :: l2) = (0, l1 ++ l2) ∧
    LinkedList_delete a (LinkedList_appendAll [a, b, a] (LinkedList_make Int))
      = (0, [b, a]) := by
  refine ⟨delete_first l1 l2 v hv, ?_⟩
  rw [LinkedList_make, appendAll_nil_eq]
  simp [LinkedList_delete]

theorem C5_delete_first_occurrence_witness :
    LinkedList_delete (2 : Int) ([9] ++ 2 :: [2, 5]) = (0, [9] ++ [2, 5]) ∧
    LinkedList_delete (1 : Int)
        (LinkedList_appendAll [1, 7, 1] (LinkedList_make Int))
      = (0, [7, 1]) :=
  C5_delete_first_occurrence 2 1 7 [9] [2, 5] (by decide)

/-- C6: when no node's value compares equal to `value`,
`LinkedList_T_delete` returns the nonzero `NotFound` result (1) and the list
is completely unchanged. -/
theorem C6_delete_not_found (v : Int) (l : List Int) (hv : v ∉ l) :
    LinkedList_delete v l = (1, l) ∧ (LinkedList_delete v l).1 ≠ 0 := by
  have h := delete_not_mem v l hv
  exact ⟨h, by rw [h]; exact Nat.one_ne_zero⟩

theorem C6_delete_not_found_witness :
    LinkedList_delete (4 : Int) [1, 2, 3] = (1, [1, 2, 3]) ∧
    (LinkedList_delete (4 : Int) [1, 2, 3]).1 ≠ 0 :=
  C6_delete_not_found 4 [1, 2, 3] (by decide)

/-- C7 counterexample: `LinkedList_T_append` returns `void`, so on
allocation failure nothing is signalled to the caller: the value returned by
the call (`()`) is identical to the one returned on success, and the failed
call on a fresh list leaves it empty with no other observable effect.  There
is no `AllocationFailure` channel. -/
theorem C7_append_signals_nothing :
    (LinkedList_append_call false (12 : Int) (LinkedList_make Int)).1
      = (LinkedList_append_call true (12 : Int) (LinkedList_make Int)).1 ∧
    LinkedList_append_call false (12 : Int) (LinkedList_make Int)
      = ((), []) := ⟨rfl, rfl⟩

/-- C7 (amended): `LinkedList_T_append` appends `value` at the tail whenever
the node allocation succeeds, and on allocation failure it leaves the list
unchanged with no partial link; however its return type is `void`, so the
failure is silent — the caller receives exactly the same (empty) return value
as on success, not an `AllocationFailure` signal. -/
theorem C7_append_alloc_behavior (v : Int) (l : List Int) :
    LinkedList_append true v l = l ++ [v] ∧
    LinkedList_append false v l = l ∧
    (LinkedList_append_call false v l).1 = (LinkedList_append_call true v l).1 := by
  exact ⟨append_true v l, append_false v l, rfl⟩

/-- C8: the `main` scenario of `src/main.c`: `LinkedList_int_make()`, then
`LinkedList_int_append(12, ll)`, then `LinkedList_int_get(0, ll, &fst_elem)`
returns the ok status `GOT_OK = 0` and stores 12 in `fst_elem`, whatever
value `fst_elem` held before. -/
theorem C8_main_scenario (r : Int) :
    LinkedList_get 0 (LinkedList_append true 12 (LinkedList_make Int)) r
      = (GOT_OK, 12) := rfl

/-- C10: on the two error returns (`GOT_EMPTY_LIST`, `GOT_OUT_OF_BOUNDS`)
`LinkedList_T_get` returns before the `*result = current->value` write, so
the caller's result location keeps its prior contents; only the `GOT_OK`
path writes through the pointer. -/
theorem C10_get_error_no_write (l : List Int) (i : Nat) (r : Int)
    (h : (LinkedList_get i l r).1 = GOT_EMPTY_LIST ∨
         (LinkedList_get i l r).1 = GOT_OUT_OF_BOUNDS) :
    (LinkedList_get i l r).2 = r := by
  by_cases h0 : LinkedList_len l = 0
  · simp [LinkedList_get, h0]
  · by_cases hle : LinkedList_len l ≤ i
    · simp [LinkedList_get, h0, hle]
    · exfalso
      have hlt : i < l.length := by rw [len_eq_length] at hle; omega
      rw [get_ok l i r hlt] at h
      simp [GOT_OK, GOT_EMPTY_LIST, GOT_OUT_OF_BOUNDS] at h

theorem C10_get_error_no_write_witness :
    (LinkedList_get 0 ([] : List Int) 7).2 = 7 :=
  C10_get_error_no_write [] 0 7 (Or.inl rfl)

/-! ### Lemmas about chains in the pointer-machine embedding -/

theorem chainSeg_nil_inv {s : Store α} {p q : Option Nat}
    (h : ChainSeg s p [] q) : p = q := by
  cases h; rfl

theorem chainSeg_cons_inv {s : Store α} {p q : Option Nat} {x : Nat}
    {l : List Nat} (h : ChainSeg s p (x :: l) q) :
    p = some x ∧ ∃ n, s x = some n ∧ ChainSeg s n.next l q := by
  cases h with
  | cons hx hrest => exact ⟨rfl, _, hx, hrest⟩

/-- A `NULL`-terminated chain from a given pointer is unique. -/
theorem chain_unique {s : Store α} {l1 : List Nat} :
    ∀ {p : Option Nat} {l2 : List Nat},
    ChainSeg s p l1 none → ChainSeg s p l2 none → l1 = l2 := by
  induction l1 with
  | nil =>
    intro p l2 h1 h2
    have hp := chainSeg_nil_inv h1
    subst hp
    cases l2 with
    | nil => rfl
    | cons y l2t => exact absurd (chainSeg_cons_inv h2).1 (by simp)
  | cons x l1t ih =>
    intro p l2 h1 h2
    obtain ⟨hp, n, hx, hrest⟩ := chainSeg_cons_inv h1
    subst hp
    cases l2 with
    | nil => exact absurd (chainSeg_nil_inv h2) (by simp)
    | cons y l2t =>
      obtain ⟨hy, n2, hx2, hrest2⟩ := chainSeg_cons_inv h2
      have hxy : x = y := Option.some.inj hy
      subst hxy
      rw [hx] at hx2
      injection hx2 with hn
      subst hn
      rw [ih hrest hrest2]

/-- Every address on a chain segment starts a chain to the same endpoint
that is a suffix of the original one. -/
theorem chain_mem_suffix {s : Store α} {l : List Nat} :
    ∀ {p q : Option Nat} {a : Nat},
    ChainSeg s p l q → a ∈ l →
    ∃ l2, ChainSeg s (some a) (a :: l2) q ∧ (a :: l2) <:+ l := by
  induction l with
  | nil => intro p q a _ ha; cases ha
  | cons x lt ih =>
    intro p q a h ha
    obtain ⟨hp, n, hx, hrest⟩ := chainSeg_cons_inv h
    subst hp
    rcases List.mem_cons.mp ha with hax | hal
    · subst hax
      exact ⟨lt, ChainSeg.cons hx hrest, List.suffix_refl _⟩
    · obtain ⟨l2, hc, hsuf⟩ := ih hrest hal
      exact ⟨l2, hc, hsuf.trans (List.suffix_cons _ _)⟩

/-- No address repeats on a chain: the reachable nodes are pairwise
distinct (acyclicity / no sharing). -/
theorem chain_nodup {s : Store α} {l : List Nat} :
    ∀ {p : Option Nat}, ChainSeg s p l none → l.Nodup := by
  induction l with
  | nil => intro p _; exact List.nodup_nil
  | cons x lt ih =>
    intro p h
    obtain ⟨hp, n, hx, hrest⟩ := chainSeg_cons_inv h
    subst hp
    refine List.nodup_cons.mpr ⟨?_, ih hrest⟩
    intro hmem
    obtain ⟨l2, hc, hsuf⟩ := chain_mem_suffix hrest hmem
    have heq : x :: lt = x :: l2 := chain_unique h hc
    have hlen : (x :: l2).length ≤ lt.length := hsuf.length_le
    rw [← heq] at hlen
    simp at hlen

/-- Every address on a chain segment holds an allocated node. -/
theorem chain_mem_alloc {s : Store α} {p q : Option Nat} {l : List Nat}
    (h : ChainSeg s p l q) {a : Nat} (ha : a ∈ l) : ∃ n, s a = some n := by
  obtain ⟨l2, hc, _⟩ := chain_mem_suffix h ha
  obtain ⟨_, n, hn, _⟩ := chainSeg_cons_inv hc
  exact ⟨n, hn⟩

/-- Under the allocator-frontier property, every chain address lies below
`bound`. -/
theorem chain_lt_bound {s : Store α} {bound : Nat}
    (hb : ∀ a, bound ≤ a → s a = none) {p q : Option Nat} {l : List Nat}
    (h : ChainSeg s p l q) {a : Nat} (ha : a ∈ l) : a < bound := by
  obtain ⟨n, hn⟩ := chain_mem_alloc h ha
  by_contra hlt
  rw [hb a (by omega)] at hn
  cases hn

/-- A duplicate-free list of naturals all below `b` has at most `b`
elements. -/
theorem nodup_lt_length_le {l : List Nat} {b : Nat} (hn : l.Nodup)
    (hlt : ∀ a ∈ l, a < b) : l.length ≤ b := by
  have hsub : l.toFinset ⊆ Finset.range b := by
    intro a ha
    rw [Finset.mem_range]
    exact hlt a (List.mem_toFinset.mp ha)
  have hcard := Finset.card_le_card hsub
  rwa [List.toFinset_card_of_nodup hn, Finset.card_range] at hcard

/-- Writing a cell off a chain segment does not disturb it. -/
theorem chainSeg_setStore {s : Store α} {b : Nat} {x : Option (PNode α)}
    {p q : Option Nat} {l : List Nat} (h : ChainSeg s p l q) (hb : b ∉ l) :
    ChainSeg (setStore s b x) p l q := by
  induction h with
  | nil _ => exact ChainSeg.nil _
  | cons hx hrest ih =>
    rename_i p n l' q
    simp only [List.mem_cons, not_or] at hb
    refine ChainSeg.cons ?_ (ih hb.2)
    have hpb : ¬ p = b := fun hc => hb.1 hc.symm
    simp [setStore, hpb, hx]

/-- Chain segments compose. -/
theorem chainSeg_append {s : Store α} {p m q : Option Nat}
    {l1 l2 : List Nat} (h1 : ChainSeg s p l1 m) (h2 : ChainSeg s m l2 q) :
    ChainSeg s p (l1 ++ l2) q := by
  induction h1 with
  | nil _ => simpa using h2
  | cons hx hrest ih => exact ChainSeg.cons hx (ih h2)

/-- Chain segments split at any decomposition of the address list. -/
theorem chainSeg_split {s : Store α} {p q : Option Nat}
    {l1 l2 : List Nat} (h : ChainSeg s p (l1 ++ l2) q) :
    ∃ m, ChainSeg s p l1 m ∧ ChainSeg s m l2 q := by
  induction l1 generalizing p with
  | nil => exact ⟨p, ChainSeg.nil p, by simpa using h⟩
  | cons x l1t ih =>
    obtain ⟨hp, n, hx, hrest⟩ := chainSeg_cons_inv (by simpa using h)
    subst hp
    obtain ⟨m, hm1, hm2⟩ := ih hrest
    exact ⟨m, ChainSeg.cons hx hm1, hm2⟩

theorem getLast?_decomp : ∀ (l : List Nat) (t : Nat),
    l.getLast? = some t → ∃ l1, l = l1 ++ [t] := by
  intro l
  induction l with
  | nil => intro t ht; cases ht
  | cons x xs ih =>
    intro t ht
    cases xs with
    | nil =>
      simp only [List.getLast?_singleton, Option.some_inj] at ht
      exact ⟨[], by rw [ht]; rfl⟩
    | cons y ys =>
      rw [List.getLast?_cons_cons] at ht
      obtain ⟨l1, hl1⟩ := ih t ht
      exact ⟨x :: l1, by rw [List.cons_append, ← hl1]⟩

theorem setStore_same (s : Store α) (a : Nat) (n : Option (PNode α)) :
    setStore s a n a = n := by simp [setStore]

theorem setStore_other (s : Store α) {a b : Nat} (n : Option (PNode α))
    (h : b ≠ a) : setStore s a n b = s b := by simp [setStore, h]

theorem setStore_setStore_same (s : Store α) (a : Nat)
    (x y : Option (PNode α)) :
    setStore (setStore s a x) a y = setStore s a y := by
  funext b
  by_cases hb : b = a <;> simp [setStore, hb]

/-- Rewriting a cell with the node it already holds is the identity. -/
theorem setStore_id {s : Store α} {a : Nat} {n : Option (PNode α)}
    (h : s a = n) : setStore s a n = s := by
  funext b
  by_cases hb : b = a
  · subst hb; rw [setStore_same, h]
  · exact setStore_other s n hb

/-- On a `NULL`-terminated chain and with enough fuel, `findTail` returns
the last address of the chain, whose node has `next = NULL`. -/
theorem findTail_last {s : Store α} :
    ∀ (fuel : Nat) (h0 : Nat) (l : List Nat),
    ChainSeg s (some h0) (h0 :: l) none → l.length < fuel →
    ∃ t tn, findTail s fuel h0 = some t ∧ s t = some tn ∧ tn.next = none ∧
      (h0 :: l).getLast? = some t := by
  intro fuel
  induction fuel with
  | zero => intro h0 l _ hl; omega
  | succ f ih =>
    intro h0 l hc hl
    obtain ⟨_, n, hx, hrest⟩ := chainSeg_cons_inv hc
    cases hnext : n.next with
    | none =>
      rw [hnext] at hrest
      have hl0 : l = [] := by
        cases l with
        | nil => rfl
        | cons y lt => exact absurd (chainSeg_cons_inv hrest).1 (by simp)
      subst hl0
      exact ⟨h0, n, by simp [findTail, hx, hnext], hx, hnext, rfl⟩
    | some b =>
      rw [hnext] at hrest
      cases l with
      | nil => exact absurd (chainSeg_nil_inv hrest) (by simp)
      | cons y lt =>
        have hy : y = b := (Option.some.inj (chainSeg_cons_inv hrest).1).symm
        subst hy
        simp only [List.length_cons] at hl
        obtain ⟨t, tn, hft, hst, htn, hlast⟩ := ih y lt hrest (by omega)
        refine ⟨t, tn, ?_, hst, htn, ?_⟩
        · simp [findTail, hx, hnext, hft]
        · rw [List.getLast?_cons_cons]
          exact hlast

/-- On a `NULL`-terminated chain and with enough fuel, the counting loop of
`LinkedList_T_len` returns the number of reachable nodes. -/
theorem lenLoop_spec {s : Store α} :
    ∀ (l : List Nat) (fuel : Nat) (p : Option Nat),
    ChainSeg s p l none → l.length < fuel → lenLoop s fuel p = l.length := by
  intro l
  induction l with
  | nil =>
    intro fuel p hc _
    have hp := chainSeg_nil_inv hc
    subst hp
    cases fuel with
    | zero => rfl
    | succ f => rfl
  | cons x lt ih =>
    intro fuel p hc hl
    obtain ⟨hp, n, hx, hrest⟩ := chainSeg_cons_inv hc
    subst hp
    cases fuel with
    | zero => simp at hl
    | succ f =>
      simp only [List.length_cons] at hl ⊢
      have hstep : lenLoop s (f + 1) (some x) = lenLoop s f n.next + 1 := by
        simp [lenLoop, hx]
      rw [hstep, ih f n.next hrest (by omega)]

/-- Append preserves the structural invariant, whether the
node allocation succeeds or fails. -/
theorem appendP_WF (ok : Bool) (v : α) (st : PtrList α) (h : WF st) :
    WF (LinkedList_appendP ok v st) := by
  obtain ⟨s, bound, head⟩ := st
  obtain ⟨hb, addrs, hchain⟩ := h
  simp only at hb hchain
  cases head with
  | none =>
    cases ok with
    | false =>
      exact ⟨hb, [], ChainSeg.nil none⟩
    | true =>
      refine ⟨?_, [bound], ?_⟩
      · intro a ha
        have ha2 : bound + 1 ≤ a := ha
        show setStore s bound (some ⟨v, none⟩) a = none
        rw [setStore_other s _ (by omega : a ≠ bound)]
        exact hb a (by omega)
      · show ChainSeg (setStore s bound (some ⟨v, none⟩)) (some bound)
          [bound] none
        exact ChainSeg.cons (setStore_same s bound _) (ChainSeg.nil none)
  | some h0 =>
    -- the existing chain is nonempty and starts at h0
    obtain ⟨rest, hax⟩ : ∃ rest, addrs = h0 :: rest := by
      cases addrs with
      | nil => exact absurd (chainSeg_nil_inv hchain) (by simp)
      | cons x rest =>
        have hx0 : h0 = x := Option.some.inj (chainSeg_cons_inv hchain).1
        exact ⟨rest, by rw [hx0]⟩
    subst hax
    have hnodup : (h0 :: rest).Nodup := chain_nodup hchain
    have hlt : ∀ a ∈ h0 :: rest, a < bound := fun a ha =>
      chain_lt_bound hb hchain ha
    have hlen : (h0 :: rest).length ≤ bound := nodup_lt_length_le hnodup hlt
    simp only [List.length_cons] at hlen
    obtain ⟨t, tn, hft, hst, htn, hlast⟩ :=
      findTail_last (bound + 1) h0 rest hchain (by omega)
    obtain ⟨l1, hl1⟩ := getLast?_decomp (h0 :: rest) t hlast
    have htmem : t ∈ h0 :: rest := by rw [hl1]; simp
    have htb : t < bound := hlt t htmem
    have hbnotmem : bound ∉ h0 :: rest := fun hm => by
      have := hlt bound hm; omega
    have htnotl1 : t ∉ l1 := by
      have := hnodup
      rw [hl1] at this
      have hpair := List.disjoint_of_nodup_append this
      exact fun hm => hpair hm (by simp)
    have hbnotl1 : bound ∉ l1 := fun hm => hbnotmem (by rw [hl1]; simp [hm])
    obtain ⟨m, hm1, hm2⟩ := chainSeg_split (by rw [hl1] at hchain; exact hchain)
    have hmt : m = some t := (chainSeg_cons_inv hm2).1
    subst hmt
    have hres : LinkedList_appendP ok v ⟨s, bound, some h0⟩ =
        ⟨setStore (LinkedList_newP ok v s bound).2.1 t
           (some ⟨tn.value, (LinkedList_newP ok v s bound).1⟩),
         (LinkedList_newP ok v s bound).2.2, some h0⟩ := by
      simp only [LinkedList_appendP, hft, hst]
    rw [hres]
    cases ok with
    | false =>
      have htn2 : (⟨tn.value, none⟩ : PNode α) = tn := by
        cases tn
        simp only at htn
        rw [htn]
      have hsid : setStore s t (some ⟨tn.value, none⟩) = s := by
        rw [htn2]
        exact setStore_id hst
      refine ⟨?_, h0 :: rest, ?_⟩
      · intro a ha
        have ha2 : bound ≤ a := ha
        show setStore s t (some ⟨tn.value, none⟩) a = none
        rw [hsid]
        exact hb a ha2
      · show ChainSeg (setStore s t (some ⟨tn.value, none⟩)) (some h0)
          (h0 :: rest) none
        rw [hsid]
        exact hchain
    | true =>
      refine ⟨?_, (l1 ++ [t]) ++ [bound], ?_⟩
      · intro a ha
        have ha2 : bound + 1 ≤ a := ha
        show setStore (setStore s bound (some ⟨v, none⟩)) t
          (some ⟨tn.value, some bound⟩) a = none
        rw [setStore_other _ _ (by omega : a ≠ t),
          setStore_other _ _ (by omega : a ≠ bound)]
        exact hb a (by omega)
      · show ChainSeg (setStore (setStore s bound (some ⟨v, none⟩)) t
          (some ⟨tn.value, some bound⟩)) (some h0) ((l1 ++ [t]) ++ [bound]) none
        have seg1 : ChainSeg
            (setStore (setStore s bound (some ⟨v, none⟩)) t
              (some ⟨tn.value, some bound⟩)) (some h0) l1 (some t) :=
          chainSeg_setStore (chainSeg_setStore hm1 hbnotl1) htnotl1
        have seg2 : ChainSeg
            (setStore (setStore s bound (some ⟨v, none⟩)) t
              (some ⟨tn.value, some bound⟩)) (some t) [t] (some bound) :=
          ChainSeg.cons (setStore_same _ t _) (ChainSeg.nil (some bound))
        have seg3 : ChainSeg
            (setStore (setStore s bound (some ⟨v, none⟩)) t
              (some ⟨tn.value, some bound⟩)) (some bound) [bound] none := by
          have hsb : setStore (setStore s bound (some ⟨v, none⟩)) t
              (some ⟨tn.value, some bound⟩) bound = some ⟨v, none⟩ := by
            rw [setStore_other _ _ (by omega : bound ≠ t),
              setStore_same s bound _]
          exact ChainSeg.cons hsb (ChainSeg.nil none)
        exact chainSeg_append (chainSeg_append seg1 seg2) seg3

/-- Loop invariant for the delete scan: `l1` is the (always non-matching so
far) prefix already visited, `l2` the chain still ahead of `current`, and
`previous` either aliases `current` (entry, `l1 = []`) or points to the last
visited node, whose `next` is `current`.  Whatever happens — a match at the
head, a match further on, or no match — the resulting state is again
well-formed. -/
theorem deleteLoop_WF [DecidableEq α] (v : α) :
    ∀ (l2 : List Nat) (fuel : Nat) (st : PtrList α) (l1 : List Nat)
      (curr prev : Option Nat),
    ChainSeg st.store st.head l1 curr →
    ChainSeg st.store curr l2 none →
    (l1 ++ l2).Nodup →
    (∀ a, st.bound ≤ a → st.store a = none) →
    ((l1 = [] ∧ prev = curr) ∨
      (∃ p pn l1i, l1 = l1i ++ [p] ∧ prev = some p ∧
        st.store p = some pn ∧ pn.next = curr)) →
    l2.length < fuel →
    WF (deleteLoop v fuel st curr prev).2 := by
  intro l2
  induction l2 with
  | nil =>
    intro fuel st l1 curr prev hseg1 hseg2 hnodup hb hprev hfuel
    have hcurr : curr = none := chainSeg_nil_inv hseg2
    subst hcurr
    cases fuel with
    | zero => simp at hfuel
    | succ f => exact ⟨hb, l1, hseg1⟩
  | cons c l2t ih =>
    intro fuel st l1 curr prev hseg1 hseg2 hnodup hb hprev hfuel
    obtain ⟨hcurr, cn, hstc, hrest⟩ := chainSeg_cons_inv hseg2
    subst hcurr
    have hcl2t : c ∉ l2t := by
      have h2 : (c :: l2t).Nodup := hnodup.of_append_right
      exact (List.nodup_cons.mp h2).1
    have hdisj : l1.Disjoint (c :: l2t) := List.disjoint_of_nodup_append hnodup
    have hcl1 : c ∉ l1 := fun hm => hdisj hm (by simp)
    cases fuel with
    | zero => simp at hfuel
    | succ f =>
      by_cases hval : cn.value = v
      · -- the scan found the first match at address c
        rcases hprev with ⟨hl1, hpc⟩ | ⟨p, pn, l1i, hl1, hpp, hstp, hpn⟩
        · -- head match: current = previous = head = c
          subst hl1 hpc
          have hhead : st.head = some c := chainSeg_nil_inv hseg1
          have hstep : deleteLoop v (f + 1) st (some c) (some c) =
              (0, { store := setStore (setStore st.store c
                      (some ⟨cn.value, cn.next⟩)) c none,
                    bound := st.bound, head := cn.next }) := by
            simp [deleteLoop, hstc, hval, hhead]
          rw [hstep]
          refine ⟨?_, l2t, ?_⟩
          · intro a ha
            have ha2 : st.bound ≤ a := ha
            show setStore (setStore st.store c (some ⟨cn.value, cn.next⟩))
              c none a = none
            rw [setStore_setStore_same]
            by_cases hac : a = c
            · subst hac; exact setStore_same _ _ _
            · rw [setStore_other _ _ hac]; exact hb a ha2
          · show ChainSeg (setStore (setStore st.store c
              (some ⟨cn.value, cn.next⟩)) c none) cn.next l2t none
            rw [setStore_setStore_same]
            exact chainSeg_setStore hrest hcl2t
        · -- non-head match: previous = p, the node before c
          subst hl1 hpp
          have hl1ne : l1i ++ [p] ≠ [] := by simp
          obtain ⟨h1, l1t, hl1c⟩ := List.exists_cons_of_ne_nil hl1ne
          have hhead : st.head = some h1 := by
            rw [hl1c] at hseg1
            exact (chainSeg_cons_inv hseg1).1
          have hpmem : p ∈ l1i ++ [p] := by simp
          have hne : ¬ st.head = some c := by
            rw [hhead]
            intro heq
            have h1c : h1 = c := Option.some.inj heq
            have h1mem : h1 ∈ l1i ++ [p] := by rw [hl1c]; simp
            exact hdisj h1mem (by simp [h1c.symm])
          have hpc : p ≠ c := fun hpc => hdisj hpmem (by simp [hpc])
          have hstep : deleteLoop v (f + 1) st (some c) (some p) =
              (0, { store := setStore (setStore st.store p
                      (some ⟨pn.value, cn.next⟩)) c none,
                    bound := st.bound, head := st.head }) := by
            simp [deleteLoop, hstc, hval, hstp, hne]
          rw [hstep]
          obtain ⟨m2, hm1, hm2⟩ := chainSeg_split hseg1
          have hm2p : m2 = some p := (chainSeg_cons_inv hm2).1
          subst hm2p
          have hpl1i : p ∉ l1i := by
            have hn1 : (l1i ++ [p]).Nodup := hnodup.of_append_left
            have := List.disjoint_of_nodup_append hn1
            exact fun hm => this hm (by simp)
          have hcl1i : c ∉ l1i := fun hm => hcl1 (by simp [hm])
          have hpl2t : p ∉ l2t := fun hm => hdisj hpmem (by simp [hm])
          refine ⟨?_, (l1i ++ [p]) ++ l2t, ?_⟩
          · intro a ha
            have ha2 : st.bound ≤ a := ha
            show setStore (setStore st.store p (some ⟨pn.value, cn.next⟩))
              c none a = none
            by_cases hac : a = c
            · subst hac; exact setStore_same _ _ _
            · rw [setStore_other _ _ hac]
              have hplt : p < st.bound :=
                chain_lt_bound hb hseg1 hpmem
              rw [setStore_other _ _ (by omega : a ≠ p)]
              exact hb a ha2
          · show ChainSeg (setStore (setStore st.store p
              (some ⟨pn.value, cn.next⟩)) c none) st.head
              ((l1i ++ [p]) ++ l2t) none
            have seg1 : ChainSeg (setStore (setStore st.store p
                (some ⟨pn.value, cn.next⟩)) c none) st.head l1i (some p) :=
              chainSeg_setStore (chainSeg_setStore hm1 hpl1i) hcl1i
            have seg2 : ChainSeg (setStore (setStore st.store p
                (some ⟨pn.value, cn.next⟩)) c none) (some p) [p] cn.next := by
              have hsp : setStore (setStore st.store p
                  (some ⟨pn.value, cn.next⟩)) c none p
                  = some ⟨pn.value, cn.next⟩ := by
                rw [setStore_other _ _ hpc, setStore_same]
              exact ChainSeg.cons hsp (ChainSeg.nil cn.next)
            have seg3 : ChainSeg (setStore (setStore st.store p
                (some ⟨pn.value, cn.next⟩)) c none) cn.next l2t none :=
              chainSeg_setStore (chainSeg_setStore hrest hpl2t) hcl2t
            exact chainSeg_append (chainSeg_append seg1 seg2) seg3
      · -- no match at c: step the scan
        have hstep : deleteLoop v (f + 1) st (some c) prev =
            deleteLoop v f st cn.next (some c) := by
          simp [deleteLoop, hstc, hval]
        rw [hstep]
        apply ih f st (l1 ++ [c]) cn.next (some c)
        · exact chainSeg_append hseg1 (ChainSeg.cons hstc (ChainSeg.nil cn.next))
        · exact hrest
        · rw [List.append_assoc, List.singleton_append]
          exact hnodup
        · exact hb
        · exact Or.inr ⟨c, cn, l1, rfl, rfl, hstc, rfl⟩
        · simp only [List.length_cons] at hfuel
          omega

/-- Delete preserves the structural invariant. -/
theorem deleteP_WF [DecidableEq α] (v : α) (st : PtrList α) (h : WF st) :
    WF (LinkedList_deleteP v st).2 := by
  obtain ⟨hb, addrs, hchain⟩ := h
  have hnodup : addrs.Nodup := chain_nodup hchain
  have hlt : ∀ a ∈ addrs, a < st.bound := fun a ha =>
    chain_lt_bound hb hchain ha
  have hlen : addrs.length ≤ st.bound := nodup_lt_length_le hnodup hlt
  exact deleteLoop_WF v addrs (st.bound + 1) st [] st.head st.head
    (ChainSeg.nil st.head) hchain (by simpa using hnodup) hb
    (Or.inl ⟨rfl, rfl⟩) (by omega)

/-- C9: every operation preserves the structural invariant of the node
chain.  On a well-formed list, `LinkedList_T_append` (with the allocation
succeeding or failing) and `LinkedList_T_delete` — the only operations that
mutate links — yield a well-formed list again: the chain from `head` still
reaches `NULL` after finitely many steps.  Moreover any chain of a
well-formed list visits pairwise-distinct nodes (acyclic, no sharing), and
the logical length computed by `LinkedList_T_len` equals the number of nodes
reachable from `head` by following `next` until `NULL`.  A freshly made list
is well-formed. -/
theorem C9_structural_invariants (st : PtrList Int) (ok : Bool) (v w : Int)
    (h : WF st) :
    WF (LinkedList_appendP ok v st) ∧
    WF (LinkedList_deleteP w st).2 ∧
    (∀ addrs, ChainSeg st.store st.head addrs none →
      addrs.Nodup ∧ LinkedList_lenP st = addrs.length) ∧
    WF (LinkedList_makeP Int) := by
  refine ⟨appendP_WF ok v st h, deleteP_WF w st h, ?_, ?_⟩
  · intro addrs hchain
    refine ⟨chain_nodup hchain, ?_⟩
    have hlt : ∀ a ∈ addrs, a < st.bound := fun a ha =>
      chain_lt_bound h.1 hchain ha
    have hlen : addrs.length ≤ st.bound :=
      nodup_lt_length_le (chain_nodup hchain) hlt
    exact lenLoop_spec addrs (st.bound + 1) st.head hchain (by omega)
  · exact ⟨fun a _ => rfl, [], ChainSeg.nil none⟩

theorem C9_structural_invariants_witness :
    WF (LinkedList_appendP true 1 (LinkedList_makeP Int)) ∧
    WF (LinkedList_deleteP 2 (LinkedList_makeP Int)).2 ∧
    (∀ addrs, ChainSeg (LinkedList_makeP Int).store
        (LinkedList_makeP Int).head addrs none →
      addrs.Nodup ∧ LinkedList_lenP (LinkedList_makeP Int) = addrs.length) ∧
    WF (LinkedList_makeP Int) :=
  C9_structural_invariants (LinkedList_makeP Int) true 1 2
    ⟨fun _ _ => rfl, [], ChainSeg.nil none⟩

end DSA
